import Mathlib

/-!
Verification of the documentation sync engine (`scripts/sync-docs.mjs`).

Strings from the JavaScript source are modelled as `List Char`; file and
directory names (compared only for equality and affix tests) are modelled
as `String`.  JavaScript numbers arising from `parseInt(..., 10)` are
modelled as `Option Int`, with `none` standing for `NaN`.
-/

set_option autoImplicit false

namespace SyncDocs

/-- The apostrophe character, written via its code point. -/
def squote : Char := Char.ofNat 39

/-- Whitespace as recognised by `String.prototype.trim` (ASCII subset). -/
def isJsSpace (c : Char) : Bool :=
  c = ' ' || c = '\t' || c = '\n' || c = '\r' || c = '\x0b' || c = '\x0c'

/-- Model of `s.trim()`: drop whitespace from both ends. -/
def trimChars (l : List Char) : List Char :=
  ((l.dropWhile isJsSpace).reverse.dropWhile isJsSpace).reverse

/-- Model of `parseInt(s, 10)`: skip leading whitespace, optional sign,
then a maximal run of decimal digits; no digits means `NaN` (`none`). -/
def jsParseInt (s : List Char) : Option Int :=
  let t := s.dropWhile isJsSpace
  let sign : Bool × List Char :=
    match t with
    | '-' :: r => (true, r)
    | '+' :: r => (false, r)
    | _ => (false, t)
  let ds := sign.2.takeWhile Char.isDigit
  if ds.isEmpty then none
  else
    let n : Nat := ds.foldl (fun a c => a * 10 + (c.toNat - 48)) 0
    some (if sign.1 then -(n : Int) else (n : Int))

/-! ## Pattern matcher (`matchesPattern`, `shouldExclude`) -/

/-- Model of `matchesPattern(name, pattern)` from the source, with the
source's branch order: a leading `*` (length > 1) checks a suffix, else a
trailing `*` (length > 1) checks a prefix, else the lone `*` matches
everything, else exact equality. -/
def matchesPatternL (name pattern : List Char) : Bool :=
  if pattern.head? = some '*' ∧ 1 < pattern.length then
    List.isSuffixOf (pattern.drop 1) name
  else if pattern.getLast? = some '*' ∧ 1 < pattern.length then
    List.isPrefixOf pattern.dropLast name
  else if pattern = ['*'] then
    true
  else
    name == pattern

/-- The pattern semantics in the order the specification states them:
`*` alone first, then `prefix*`, then `*suffix`, then exact equality. -/
def matchesSpecL (name pattern : List Char) : Bool :=
  if pattern = ['*'] then
    true
  else if pattern.getLast? = some '*' ∧ 1 < pattern.length then
    List.isPrefixOf pattern.dropLast name
  else if pattern.head? = some '*' ∧ 1 < pattern.length then
    List.isSuffixOf (pattern.drop 1) name
  else
    name == pattern

/-- `matchesPattern` on `String` names and patterns. -/
def matchesPattern (name pattern : String) : Bool :=
  matchesPatternL name.data pattern.data

/-- Model of `shouldExclude(name, excludes)`: some pattern matches. -/
def shouldExclude (name : String) (excludes : List String) : Bool :=
  excludes.any (fun pattern => matchesPattern name pattern)

/-! ## Frontmatter values and mappings

A JavaScript frontmatter object is an insertion-ordered map.  The program
only ever stores plain strings (from `parseFrontmatter`) or the one nested
object `{ order: <number> }` built by `transformFrontmatter`. -/

/-- A frontmatter value: a plain string, or the nested `sidebar` object
`{ order: n }` where `n` is a JS number (`none` models `NaN`). -/
inductive FmValue where
  | str (s : List Char)
  | nested (order : Option Int)
  deriving DecidableEq, Repr

/-- An insertion-ordered frontmatter mapping. -/
abbrev Frontmatter : Type := List (List Char × FmValue)

/-- JS property lookup `fm[k]` (first matching key). -/
def lookupFm (fm : Frontmatter) (k : List Char) : Option FmValue :=
  match fm with
  | [] => none
  | (k', v) :: rest => if k' = k then some v else lookupFm rest k

/-- JS property assignment `fm[k] = v`: update in place if the key exists
(keeping its position), else append at the end. -/
def setKey (fm : Frontmatter) (k : List Char) (v : FmValue) : Frontmatter :=
  match fm with
  | [] => [(k, v)]
  | (k', v') :: rest => if k' = k then (k', v) :: rest else (k', v') :: setKey rest k v

/-- JS `delete fm[k]`. -/
def removeKey (fm : Frontmatter) (k : List Char) : Frontmatter :=
  fm.filter (fun p => decide (p.1 ≠ k))

/-- `fm[k] !== undefined`. -/
def hasKey (fm : Frontmatter) (k : List Char) : Bool :=
  (lookupFm fm k).isSome

/-- JS truthiness of `fm[k]`: present and not the empty string
(objects are always truthy). -/
def jsTruthy (v : Option FmValue) : Bool :=
  match v with
  | none => false
  | some (.str s) => !s.isEmpty
  | some (.nested _) => true

/-! ## Frontmatter parsing (`parseFrontmatter`) -/

/-- Strip one pair of surrounding double or single quotes, as in the
source's `value.slice(1, -1)` step. -/
def stripQuotes (v : List Char) : List Char :=
  if v.head? = some '"' ∧ v.getLast? = some '"' then (v.drop 1).dropLast
  else if v.head? = some squote ∧ v.getLast? = some squote then (v.drop 1).dropLast
  else v

/-- Model of `line.indexOf(':')` (as an `Option`, `none` for `-1`). -/
def colonIdx : List Char → Option Nat
  | [] => none
  | c :: cs => if c = ':' then some 0 else (colonIdx cs).map (· + 1)

/-- Parse one `key: value` line: the first colon must exist at a positive
index (`colonIndex > 0`), the key and value are trimmed and the value is
unquoted.  Lines without that shape are ignored by the caller. -/
def parseLine (line : List Char) : Option (List Char × List Char) :=
  match colonIdx line with
  | some i => if 0 < i then
      some (trimChars (line.take i), stripQuotes (trimChars (line.drop (i + 1))))
    else none
  | none => none

/-- Model of `String.prototype.split('\n')`. -/
def splitNl (l : List Char) : List (List Char) :=
  match l with
  | [] => [[]]
  | c :: rest =>
    if c = '\n' then [] :: splitNl rest
    else
      match splitNl rest with
      | [] => [[c]]
      | first :: others => (c :: first) :: others

/-- Accumulate the parsed `key: value` lines into an object, later
assignments overwriting earlier ones in place. -/
def buildFM (lines : List (List Char)) : Frontmatter :=
  lines.foldl
    (fun fm line =>
      match parseLine line with
      | some (k, v) => setKey fm k (.str v)
      | none => fm)
    []

/-- Does the list start with `\r\n---` (the closing delimiter with a
carriage return)? -/
def startsClose5 (l : List Char) : Bool :=
  l.take 5 = ['\r', '\n', '-', '-', '-']

/-- Does the list start with `\n---` (the closing delimiter)? -/
def startsClose4 (l : List Char) : Bool :=
  l.take 4 = ['\n', '-', '-', '-']

/-- Scan for the earliest match of `\r?\n---` (the lazy `[\s\S]*?` of the
source's regex): returns the content before the delimiter and the text
after it. -/
def scanClose (l : List Char) : Option (List Char × List Char) :=
  match l with
  | [] => none
  | c :: cs =>
    if startsClose5 (c :: cs) then some ([], (c :: cs).drop 5)
    else if startsClose4 (c :: cs) then some ([], (c :: cs).drop 4)
    else
      match scanClose cs with
      | some (inner, after) => some (c :: inner, after)
      | none => none

/-- Result of `parseFrontmatter`: the mapping and the remaining body. -/
structure ParseResult where
  frontmatter : Frontmatter
  body : List Char
  deriving DecidableEq

/-- Drop one leading `\r?\n` (the source's `.replace(/^\r?\n/, '')`). -/
def stripLeadNl (l : List Char) : List Char :=
  match l with
  | '\r' :: '\n' :: t => t
  | '\n' :: t => t
  | t => t

/-- Model of `parseFrontmatter(content)`: a block opened by a `---` line
and closed by the earliest following `\r?\n---`; content without such a
block has an empty mapping and passes through as the body. -/
def parseFrontmatter (content : List Char) : ParseResult :=
  if content.take 5 = ['-', '-', '-', '\r', '\n'] then
    match scanClose (content.drop 5) with
    | some (inner, after) => ⟨buildFM (splitNl inner), stripLeadNl after⟩
    | none => ⟨[], content⟩
  else if content.take 4 = ['-', '-', '-', '\n'] then
    match scanClose (content.drop 4) with
    | some (inner, after) => ⟨buildFM (splitNl inner), stripLeadNl after⟩
    | none => ⟨[], content⟩
  else ⟨[], content⟩

/-! ## Frontmatter transformation and serialization -/

/-- `parseInt` applied to a frontmatter value (an object gives `NaN`). -/
def jsParseIntV (v : Option FmValue) : Option Int :=
  match v with
  | some (.str s) => jsParseInt s
  | _ => none

/-- The `sidebar_position` key. -/
def spKey : List Char := "sidebar_position".data

/-- The `sidebar_group` key. -/
def sgKey : List Char := "sidebar_group".data

/-- The `sidebar` key. -/
def sbKey : List Char := "sidebar".data

/-- The `title` key. -/
def titleKey : List Char := "title".data

/-- Model of `transformFrontmatter`: replace a present `sidebar_position`
key by the nested `sidebar: { order: parseInt(value, 10) }`, then delete
`sidebar_group`. -/
def transformFrontmatter (fm : Frontmatter) : Frontmatter :=
  let t :=
    if hasKey fm spKey then
      setKey (removeKey fm spKey) sbKey (.nested (jsParseIntV (lookupFm fm spKey)))
    else fm
  removeKey t sgKey

/-- Template-literal rendering of a JS number (`NaN` prints as `NaN`). -/
def numToChars (n : Option Int) : List Char :=
  match n with
  | some i => (toString i).data
  | none => ['N', 'a', 'N']

/-- The source's `.replace(/"/g, '\\"')`. -/
def escapeQ (v : List Char) : List Char :=
  v.flatMap (fun c => if c = '"' then ['\\', '"'] else [c])

/-- Does a string value need double quoting (contains `:`, `#` or an
apostrophe)? -/
def hasSpecial (v : List Char) : Bool :=
  v.any (fun c => c = ':' || c = '#' || c = squote)

/-- The single line serialized for a string-valued entry: bare, or
double-quoted with inner double quotes escaped when the value contains a
colon, hash or apostrophe. -/
def renderStrLine (k v : List Char) : List Char :=
  if hasSpecial v then k ++ [':', ' ', '"'] ++ escapeQ v ++ ['"']
  else k ++ [':', ' '] ++ v

/-- The line(s) serialized for one frontmatter entry. -/
def entryLines (p : List Char × FmValue) : List (List Char) :=
  match p.2 with
  | .nested o => [p.1 ++ [':'], [' ', ' ', 'o', 'r', 'd', 'e', 'r', ':', ' '] ++ numToChars o]
  | .str s => [renderStrLine p.1 s]

/-- Model of `lines.join('\n')`. -/
def joinNl (ls : List (List Char)) : List Char :=
  match ls with
  | [] => []
  | [l] => l
  | l :: rest => l ++ '\n' :: joinNl rest

/-- Model of `serializeFrontmatter`: a `---`-delimited block of entry
lines. -/
def serializeFrontmatter (fm : Frontmatter) : List Char :=
  joinNl ([['-', '-', '-']] ++ fm.flatMap entryLines ++ [['-', '-', '-']])

/-- A key that survives the codec round trip: nonempty, free of colons,
newlines and carriage returns, already trimmed, and not starting with
the `---` delimiter. -/
def goodKey (k : List Char) : Prop :=
  k ≠ [] ∧ ':' ∉ k ∧ '\n' ∉ k ∧ '\r' ∉ k ∧ trimChars k = k ∧ ¬(['-', '-', '-'] <+: k)

/-- A string value that survives the codec round trip: free of newlines
and carriage returns, already trimmed, containing no double quote when
the serializer would quote it (value contains `:`, `#` or an
apostrophe), and not spuriously wrapped in double quotes when emitted
bare. -/
def goodVal (v : List Char) : Prop :=
  '\n' ∉ v ∧ '\r' ∉ v ∧ trimChars v = v ∧
    (hasSpecial v = true → '"' ∉ v) ∧
    (hasSpecial v = false → ¬(v.head? = some '"' ∧ v.getLast? = some '"'))

instance (k : List Char) : Decidable (goodKey k) := by
  unfold goodKey
  infer_instance

instance (v : List Char) : Decidable (goodVal v) := by
  unfold goodVal
  infer_instance

/-- A serialized line that cannot collide with the closing delimiter
scan: no newline or carriage return, and `---` is not a prefix of the
line however it is extended. -/
def lineSafe (l : List Char) : Prop :=
  '\n' ∉ l ∧ '\r' ∉ l ∧ ∀ rest : List Char, ¬(['-', '-', '-'] <+: (l ++ rest))

/-! ## Slugs and titles -/

/-- An ASCII lowercase letter or digit (the `[^a-z0-9]` class after
lowercasing). -/
def isSlugChar (c : Char) : Bool :=
  ('a' ≤ c && c ≤ 'z') || ('0' ≤ c && c ≤ '9')

/-- Collapse each maximal run of non-alphanumeric characters to a single
hyphen (the `.replace(/[^a-z0-9]+/g, '-')` step); the flag records
whether the previous character was part of such a run. -/
def slugCollapse (inRun : Bool) (l : List Char) : List Char :=
  match l with
  | [] => []
  | c :: rest =>
    if isSlugChar c then c :: slugCollapse false rest
    else if inRun then slugCollapse true rest
    else '-' :: slugCollapse true rest

/-- The `/^-|-$/g` step: remove one leading and one trailing hyphen. -/
def trimDashes (l : List Char) : List Char :=
  let l1 := match l with
    | '-' :: rest => rest
    | other => other
  if l1.getLast? = some '-' then l1.dropLast else l1

/-- Model of `slugify(text)`: lowercase, collapse non-alphanumeric runs to
single hyphens, trim boundary hyphens. -/
def slugify (text : List Char) : List Char :=
  trimDashes (slugCollapse false (text.map Char.toLower))

/-- The `.replace(/\.(md|mdx)$/, '')` step: strip a trailing `.md` or
`.mdx` extension. -/
def stripMdExt (l : List Char) : List Char :=
  if List.isSuffixOf ['.', 'm', 'd', 'x'] l then l.dropLast.dropLast.dropLast.dropLast
  else if List.isSuffixOf ['.', 'm', 'd'] l then l.dropLast.dropLast.dropLast
  else l

/-- A hyphen or underscore (the `[-_]` class). -/
def isDashUnderscore (c : Char) : Bool :=
  c = '-' || c = '_'

/-- The `.replace(/[-_]+/g, ' ')` step: collapse each maximal run of
hyphens/underscores to one space. -/
def collapseDashes (inRun : Bool) (l : List Char) : List Char :=
  match l with
  | [] => []
  | c :: rest =>
    if isDashUnderscore c then
      if inRun then collapseDashes true rest
      else ' ' :: collapseDashes true rest
    else c :: collapseDashes false rest

/-- An ASCII word character (the `\w` class: letters, digits,
underscore). -/
def isWordChar (c : Char) : Bool :=
  ('a' ≤ c && c ≤ 'z') || ('A' ≤ c && c ≤ 'Z') || ('0' ≤ c && c ≤ '9') || c = '_'

/-- The `.replace(/\b\w/g, c => c.toUpperCase())` step: uppercase every
word character that follows a non-word position. -/
def upperAtBoundaries (prevWord : Bool) (l : List Char) : List Char :=
  match l with
  | [] => []
  | c :: rest =>
    (if isWordChar c && !prevWord then c.toUpper else c) ::
      upperAtBoundaries (isWordChar c) rest

/-- Model of `filenameToTitle(filename)`. -/
def filenameToTitle (filename : List Char) : List Char :=
  upperAtBoundaries false (collapseDashes false (stripMdExt filename))

/-! ## The classifier (`processMarkdownFile`) -/

/-- The reserved fallback group label `Drafts`. -/
def draftsVal : List Char := "Drafts".data

/-- `filename === 'index.md' || filename === 'index.mdx'` — note this
tests only the basename, at any depth. -/
def isIndexName (filename : String) : Bool :=
  filename = "index.md" || filename = "index.mdx"

/-- `entry.endsWith('.md') || entry.endsWith('.mdx')`. -/
def isMdName (name : String) : Bool :=
  List.isSuffixOf ['.', 'm', 'd'] name.data || List.isSuffixOf ['.', 'm', 'd', 'x'] name.data

/-- `entry.endsWith('.json')`. -/
def isJsonName (name : String) : Bool :=
  List.isSuffixOf ['.', 'j', 's', 'o', 'n'] name.data

/-- Coerce a frontmatter value to the string JS would use for it (an
object stringifies as `[object Object]`; never reached in practice). -/
def valToChars (v : FmValue) : List Char :=
  match v with
  | .str s => s
  | .nested _ => "[object Object]".data

/-- The `if (!frontmatter.title)` step of `processMarkdownFile`: derive
the title from the filename when `title` is falsy. -/
def classifyTitleStep (filename : String) (fm : Frontmatter) : Frontmatter :=
  if jsTruthy (lookupFm fm titleKey) then fm
  else setKey fm titleKey (.str (filenameToTitle filename.data))

/-- The `if (!frontmatter.sidebar_group && !isIndex)` step of
`processMarkdownFile`. -/
def classifyGroupStep (filename : String) (fm : Frontmatter) : Frontmatter :=
  if ¬jsTruthy (lookupFm fm sgKey) ∧ ¬isIndexName filename then
    setKey fm sgKey (.str draftsVal)
  else fm

/-- Both classifier mutations in source order: the title derivation
followed by the `Drafts` group fallback. -/
def classifyFm (filename : String) (fm : Frontmatter) : Frontmatter :=
  classifyGroupStep filename (classifyTitleStep filename fm)

/-- Result of processing one markdown file: the recorded group, the
destination path relative to the destination root, and the rewritten
file content. -/
structure MdResult where
  group : Option (List Char)
  destPath : List String
  content : List Char
  deriving DecidableEq

/-- Model of `processMarkdownFile(srcPath, destDir, excludes)`: parse the
frontmatter, classify, compute the group directory from `slugify` of the
truthy `sidebar_group` (none otherwise), transform and serialize.  The
destination path depends only on the basename and the group slug. -/
def processMarkdownFile (filename : String) (content : List Char) : MdResult :=
  let pr := parseFrontmatter content
  let fm := classifyFm filename pr.frontmatter
  let group : Option (List Char) :=
    if jsTruthy (lookupFm fm sgKey) then
      some (valToChars ((lookupFm fm sgKey).getD (.str [])))
    else none
  let dir : List String :=
    match group with
    | some g => [String.mk (slugify g)]
    | none => []
  { group := group
    destPath := dir ++ [filename]
    content := serializeFrontmatter (transformFrontmatter fm) ++ '\n' :: pr.body }

/-! ## The tree synchronizer (`syncDirectory`) -/

/-- A source filesystem entry: a file with raw content, or a directory. -/
inductive FsEntry where
  | file (name : String) (content : List Char)
  | dir (name : String) (children : List FsEntry)

/-- The name of an entry, as enumerated by `readdirSync`. -/
def entryName (e : FsEntry) : String :=
  match e with
  | .file n _ => n
  | .dir n _ => n

/-- `Set.prototype.add`: append when absent, preserving insertion
order. -/
def addGroup (groups : List (List Char)) (g : List Char) : List (List Char) :=
  if g ∈ groups then groups else groups ++ [g]

/-- The synchronizer's running state: the discovered-group set and the
ordered list of destination writes (path relative to the destination
root, content). -/
structure SyncState where
  groups : List (List Char)
  writes : List (List String × List Char)
  deriving DecidableEq

/-- The initial synchronizer state. -/
def initState : SyncState := ⟨[], []⟩

mutual

/-- Process one non-excluded entry of `syncDirectory`: directories
recurse with an extended relative path, markdown files go through
`processMarkdownFile` (recording a truthy group), `.json` files are
skipped, anything else is copied verbatim to the mirrored relative
path. -/
def syncOne (excludes : List String) (relPath : List String) (st : SyncState) :
    FsEntry → SyncState
  | .file n c =>
    if isMdName n then
      let r := processMarkdownFile n c
      { groups :=
          match r.group with
          | some g => addGroup st.groups g
          | none => st.groups
        writes := st.writes ++ [(r.destPath, r.content)] }
    else if isJsonName n then st
    else { st with writes := st.writes ++ [(relPath ++ [n], c)] }
  | .dir n children => syncEntries excludes (relPath ++ [n]) st children

/-- Model of the `syncDirectory` loop over `readdirSync` entries:
excluded names are skipped entirely, others are processed in order. -/
def syncEntries (excludes : List String) (relPath : List String) (st : SyncState) :
    List FsEntry → SyncState
  | [] => st
  | e :: rest =>
    syncEntries excludes relPath
      (if shouldExclude (entryName e) excludes then st else syncOne excludes relPath st e)
      rest

end

/-! ## Sidebar generation (`generateSidebarConfig`) -/

/-- Lexicographic comparison of strings by code unit, as used by the
default `Array.prototype.sort` comparator. -/
def lexLe : List Char → List Char → Bool
  | [], _ => true
  | _ :: _, [] => false
  | a :: as, b :: bs => if a = b then lexLe as bs else decide (a < b)

/-- Insert into a sorted list (one step of a stable sort). -/
def insertSorted (s : String) : List String → List String
  | [] => [s]
  | x :: xs => if lexLe s.data x.data then s :: x :: xs else x :: insertSorted s xs

/-- Model of `Array.from(set).sort()`: the elements in ascending
lexicographic order.  On the duplicate-free lists produced by a `Set`
every comparison sort returns this same list, so the choice of algorithm
is immaterial. -/
def sortStrings (l : List String) : List String :=
  l.foldr insertSorted []

/-- The loop of `generateSidebarConfig` over `groupOrder`: emit each
listed group found in the set and delete it; returns the emitted groups
and the remaining set. -/
def orderedGroupsGo : List String → List String → List String × List String
  | [], set => ([], set)
  | g :: rest, set =>
    if g ∈ set then
      let r := orderedGroupsGo rest (set.erase g)
      (g :: r.1, r.2)
    else orderedGroupsGo rest set

/-- The ordered group labels of the generated sidebar: the configured
order first (restricted to discovered groups, each at most once), then
the leftovers sorted lexicographically. -/
def generateOrderedGroups (groups groupOrder : List String) : List String :=
  let r := orderedGroupsGo groupOrder groups
  r.1 ++ sortStrings r.2

/-- One entry of the generated navigation manifest: a direct page link
or an autogenerated directory section. -/
inductive SidebarItem where
  | page (label slug : String)
  | autogen (label directory : String)
  deriving DecidableEq

/-- Model of `generateSidebarConfig(groups, groupOrder)`: the fixed
`Introduction` entry followed by one autogenerated section per ordered
group, addressed by its slug. -/
def generateSidebarConfig (groups groupOrder : List String) : List SidebarItem :=
  .page "Introduction" "index" ::
    (generateOrderedGroups groups groupOrder).map
      (fun g => .autogen g (String.mk (slugify g.data)))

/-- The section labels of a manifest, in order. -/
def sectionLabels (items : List SidebarItem) : List String :=
  items.filterMap (fun i =>
    match i with
    | .autogen label _ => some label
    | .page _ _ => none)

/-- The section order exactly as the specification sentence describes it:
the `group_order` entries in listed order restricted to discovered
groups, then all remaining discovered groups sorted lexicographically. -/
def claimSectionOrder (groups groupOrder : List String) : List String :=
  groupOrder.filter (fun g => decide (g ∈ groups)) ++
    sortStrings (groups.filter (fun g => decide (g ∉ groupOrder)))

/-! ## Full sync (`initialSync`) -/

/-- The destination tree as a partial map from paths to byte contents. -/
def DestTree : Type := List String → Option (List Char)

/-- The empty destination tree (after `rmSync` + `mkdirSync`). -/
def emptyDest : DestTree := fun _ => none

/-- Apply an ordered list of writes; a later write to the same path
overwrites an earlier one. -/
def applyWrites (ws : List (List String × List Char)) (d : DestTree) : DestTree :=
  ws.foldl (fun d w => fun q => if q = w.1 then some w.2 else d q) d

/-- The engine configuration (`docs.json` fields used by the sync). -/
structure Config where
  exclude : List String
  group_order : List String

set_option linter.unusedVariables false in
/-- Model of `initialSync()`: remove the destination tree entirely (the
previous state `prev` is discarded by `rmSync`), re-sync the source tree
from scratch, and generate the sidebar manifest from the discovered
groups. -/
def initialSync (prev : DestTree) (src : List FsEntry) (cfg : Config) :
    DestTree × List SidebarItem :=
  let st := syncEntries cfg.exclude [] initState src
  (applyWrites st.writes emptyDest, generateSidebarConfig (st.groups.map String.mk) cfg.group_order)

/-! ## Theorems -/

/-- C8: full sync is idempotent.  The destination tree is rebuilt from an
empty tree on every run (`rmSync` before syncing), so the result never
depends on the previous destination state, and running a full sync twice
on an unchanged source yields identical destination trees. -/
theorem c8_full_sync_idempotent :
    ∀ (prev : DestTree) (src : List FsEntry) (cfg : Config),
      initialSync (initialSync prev src cfg).1 src cfg = initialSync prev src cfg ∧
      ∀ prev2 : DestTree, initialSync prev2 src cfg = initialSync prev src cfg :=
  fun _ _ _ => ⟨rfl, fun _ => rfl⟩

/-- C9: every generated navigation manifest starts with the fixed entry
`{ label: 'Introduction', slug: 'index' }`, before all group sections,
for every discovered group set and every configured group order. -/
theorem c9_manifest_starts_with_introduction :
    ∀ groups groupOrder : List String,
      (generateSidebarConfig groups groupOrder).head? =
        some (.page "Introduction" "index") ∧
      (generateSidebarConfig groups groupOrder).tail =
        (generateOrderedGroups groups groupOrder).map
          (fun g => .autogen g (String.mk (slugify g.data))) :=
  fun _ _ => ⟨rfl, rfl⟩

/-- C3 counterexample: for the pattern `*a*` (which both starts and ends
with `*`), the code's matcher applies the `*suffix` rule first, so the
name `za*` matches, while the precedence stated in the specification
(`prefix*` before `*suffix`) rejects it. -/
theorem c3_counterexample :
    matchesPatternL "za*".data "*a*".data = true ∧
    matchesSpecL "za*".data "*a*".data = false := by
  exact ⟨by decide, by decide⟩

/-- C3 amended: the matcher agrees with the specification's precedence
for every pattern that does not simultaneously start and end with `*`
(with length above one); for a pattern that does, the code applies the
`*suffix` rule, matching names that end with the pattern minus its
leading star. -/
theorem c3_amended :
    (∀ name pattern : List Char,
      ¬(pattern.head? = some '*' ∧ pattern.getLast? = some '*' ∧ 1 < pattern.length) →
      matchesPatternL name pattern = matchesSpecL name pattern) ∧
    (∀ name pattern : List Char,
      pattern.head? = some '*' → pattern.getLast? = some '*' → 1 < pattern.length →
      matchesPatternL name pattern = List.isSuffixOf (pattern.drop 1) name) := by
  constructor
  · intro name pattern h
    unfold matchesPatternL matchesSpecL
    by_cases hC : pattern = ['*']
    · subst hC; simp
    · by_cases hA : pattern.head? = some '*' ∧ 1 < pattern.length
      · by_cases hB : pattern.getLast? = some '*' ∧ 1 < pattern.length
        · exact absurd ⟨hA.1, hB.1, hA.2⟩ h
        · have hlast : ¬pattern.getLast? = some '*' := fun hl => hB ⟨hl, hA.2⟩
          simp [hA, hB, hC, hlast]
      · simp [hA, hC]
  · intro name pattern h1 h2 h3
    unfold matchesPatternL
    rw [if_pos ⟨h1, h3⟩]

/-- C3 witness: concrete instances of both conjuncts of the amended
equivalence. -/
theorem c3_witness :
    matchesPatternL "abc".data "ab*".data = matchesSpecL "abc".data "ab*".data ∧
    matchesPatternL "xa*".data "*a*".data = List.isSuffixOf ("*a*".data.drop 1) "xa*".data :=
  ⟨c3_amended.1 "abc".data "ab*".data (by decide),
   c3_amended.2 "xa*".data "*a*".data (by decide) (by decide) (by decide)⟩

/-- C6: an entry whose name matches an exclude pattern contributes
nothing to a sync: removing it (and hence, for a directory, its whole
subtree) from the enumerated entries leaves the synchronizer state —
destination writes and discovered groups — unchanged. -/
theorem c6_excluded_entry_contributes_nothing :
    ∀ (excludes : List String) (e : FsEntry),
      shouldExclude (entryName e) excludes = true →
      ∀ (pre post : List FsEntry) (relPath : List String) (st : SyncState),
        syncEntries excludes relPath st (pre ++ e :: post) =
          syncEntries excludes relPath st (pre ++ post) := by
  intro excludes e he pre
  induction pre with
  | nil =>
    intro post relPath st
    simp [syncEntries, he]
  | cons p pre ih =>
    intro post relPath st
    simp only [List.cons_append, syncEntries]
    exact ih post relPath _

/-- C6 witness: excluding `_secret.md` under the default `_*` pattern
leaves the sync of a one-file tree equal to the sync of the empty
tree. -/
theorem c6_witness :
    shouldExclude "_secret.md" ["_*"] = true ∧
    syncEntries ["_*"] [] initState [FsEntry.file "_secret.md" "x".data] =
      syncEntries ["_*"] [] initState [] :=
  ⟨by decide,
   c6_excluded_entry_contributes_nothing ["_*"] (.file "_secret.md" "x".data)
     (by decide) [] [] [] initState⟩

/-- On duplicate-free inputs, the emit-and-delete loop of
`generateSidebarConfig` computes the restriction of `groupOrder` to the
discovered set together with the un-listed remainder of the set. -/
theorem orderedGroupsGo_eq :
    ∀ groupOrder set : List String, groupOrder.Nodup → set.Nodup →
      orderedGroupsGo groupOrder set =
        (groupOrder.filter (fun g => decide (g ∈ set)),
         set.filter (fun g => decide (g ∉ groupOrder))) := by
  intro groupOrder
  induction groupOrder with
  | nil =>
    intro set _ _
    simp [orderedGroupsGo]
  | cons g rest ih =>
    intro set hgo hset
    rw [List.nodup_cons] at hgo
    obtain ⟨hg, hrest⟩ := hgo
    by_cases hmem : g ∈ set
    · rw [orderedGroupsGo, if_pos hmem, ih (set.erase g) hrest (hset.erase g)]
      have h1 : rest.filter (fun x => decide (x ∈ set.erase g)) =
          rest.filter (fun x => decide (x ∈ set)) := by
        refine List.filter_congr (fun x hx => ?_)
        have hne : x ≠ g := fun e => hg (e ▸ hx)
        simp [List.mem_erase_of_ne hne]
      simp [h1, List.filter_cons, hmem]
      rw [hset.erase_eq_filter g, List.filter_filter]
      refine List.filter_congr (fun x _ => ?_)
      by_cases hxg : x = g <;> simp [hxg]
    · rw [orderedGroupsGo, if_neg hmem, ih set hrest hset]
      simp [List.filter_cons, hmem]
      refine List.filter_congr (fun x hx => ?_)
      have hne : x ≠ g := fun e => hmem (e ▸ hx)
      simp [hne]

/-- The section labels of a list of autogenerated sections are exactly
the group labels. -/
theorem sectionLabels_map_autogen :
    ∀ l : List String,
      sectionLabels (l.map (fun g => .autogen g (String.mk (slugify g.data)))) = l := by
  intro l
  induction l with
  | nil => rfl
  | cons a t ih =>
    simp only [List.map_cons, sectionLabels, List.filterMap_cons] at ih ⊢
    exact congrArg (a :: ·) ih

/-- C5 counterexample: with discovered groups `{A}` and configured
`group_order = ["A", "A"]`, the generated manifest lists section `A`
once, while the claimed description (the `group_order` entries in listed
order restricted to discovered groups) lists it twice. -/
theorem c5_counterexample :
    sectionLabels (generateSidebarConfig ["A"] ["A", "A"]) = ["A"] ∧
    claimSectionOrder ["A"] ["A", "A"] = ["A", "A"] := by
  exact ⟨by decide, by decide⟩

/-- C5 amended: provided the configured `group_order` has no duplicate
entries (the discovered groups, coming from a `Set`, never do), the
manifest's section order is exactly the `group_order` entries in listed
order restricted to discovered groups, followed by the remaining
discovered groups sorted lexicographically; in particular
`group_order = [Reference, Guide]` with discovered groups
`{Guide, Reference, Zeta}` yields `Reference, Guide, Zeta`. -/
theorem c5_amended :
    (∀ groups groupOrder : List String, groups.Nodup → groupOrder.Nodup →
      sectionLabels (generateSidebarConfig groups groupOrder) =
        claimSectionOrder groups groupOrder) ∧
    sectionLabels (generateSidebarConfig ["Guide", "Reference", "Zeta"] ["Reference", "Guide"]) =
      ["Reference", "Guide", "Zeta"] := by
  constructor
  · intro groups groupOrder hgroups hgo
    have hlabels : sectionLabels (generateSidebarConfig groups groupOrder) =
        generateOrderedGroups groups groupOrder := by
      simp only [generateSidebarConfig, sectionLabels, List.filterMap_cons]
      exact sectionLabels_map_autogen (generateOrderedGroups groups groupOrder)
    rw [hlabels, generateOrderedGroups, orderedGroupsGo_eq groupOrder groups hgo hgroups]
    rfl
  · decide

/-- C5 witness: the amended ordering theorem applied at a concrete
duplicate-free configuration. -/
theorem c5_witness :
    sectionLabels (generateSidebarConfig ["Zeta", "Alpha"] ["Alpha"]) =
      claimSectionOrder ["Zeta", "Alpha"] ["Alpha"] :=
  c5_amended.1 ["Zeta", "Alpha"] ["Alpha"] (by decide) (by decide)

/-- Looking up the key just assigned returns the assigned value. -/
theorem lookupFm_setKey_self (fm : Frontmatter) (k : List Char) (v : FmValue) :
    lookupFm (setKey fm k v) k = some v := by
  induction fm with
  | nil => simp [setKey, lookupFm]
  | cons p rest ih =>
    obtain ⟨a, b⟩ := p
    by_cases hak : a = k
    · simp [setKey, lookupFm, hak]
    · simp [setKey, lookupFm, hak, ih]

/-- Assigning one key leaves lookups of other keys unchanged. -/
theorem lookupFm_setKey_ne (fm : Frontmatter) (k k' : List Char) (v : FmValue)
    (h : k' ≠ k) : lookupFm (setKey fm k v) k' = lookupFm fm k' := by
  have hkk : ¬(k = k') := fun e => h e.symm
  induction fm with
  | nil => simp [setKey, lookupFm, hkk]
  | cons p rest ih =>
    obtain ⟨a, b⟩ := p
    by_cases hak : a = k
    · subst hak
      simp [setKey, lookupFm, hkk]
    · by_cases hak2 : a = k'
      · simp [setKey, lookupFm, hak, hak2, h]
      · simp [setKey, lookupFm, hak, hak2, ih]

/-- The classifier's title step never changes the `sidebar_group`
lookup. -/
theorem lookupFm_titleStep_sg (filename : String) (fm : Frontmatter) :
    lookupFm (classifyTitleStep filename fm) sgKey = lookupFm fm sgKey := by
  unfold classifyTitleStep
  by_cases ht : jsTruthy (lookupFm fm titleKey)
  · rw [if_pos ht]
  · rw [if_neg ht]
    exact lookupFm_setKey_ne fm titleKey sgKey _ (by decide)

/-- The `sidebar_group` lookup after both classifier steps: the `Drafts`
fallback fires exactly when the parsed `sidebar_group` is falsy and the
basename is not an index file. -/
theorem lookupFm_classify_sg (filename : String) (fm : Frontmatter) :
    lookupFm (classifyFm filename fm) sgKey =
      if jsTruthy (lookupFm fm sgKey) = false ∧ isIndexName filename = false
      then some (.str draftsVal)
      else lookupFm fm sgKey := by
  unfold classifyFm classifyGroupStep
  rw [lookupFm_titleStep_sg]
  by_cases hc : ¬jsTruthy (lookupFm fm sgKey) ∧ ¬isIndexName filename
  · rw [if_pos hc, lookupFm_setKey_self,
      if_pos ⟨Bool.not_eq_true _ ▸ hc.1, Bool.not_eq_true _ ▸ hc.2⟩]
  · rw [if_neg hc, lookupFm_titleStep_sg,
      if_neg (fun h2 => hc ⟨by simp [h2.1], by simp [h2.2]⟩)]

/-- C1 counterexample.  First conjunct: a markdown file named `index.md`
inside a subdirectory — not the root index — with no `sidebar_group` is
not assigned to `Drafts` (the discovered-group set stays empty), because
the code tests only the basename; it is even written to the destination
root.  Second conjunct: an `index.md` whose frontmatter carries an
explicit `sidebar_group` is assigned that group, so the root index is
not "never assigned any group". -/
theorem c1_counterexample :
    ((syncEntries ["_*"] [] initState
        [FsEntry.dir "sub" [FsEntry.file "index.md" "hello".data]]).groups = [] ∧
      (syncEntries ["_*"] [] initState
        [FsEntry.dir "sub" [FsEntry.file "index.md" "hello".data]]).writes.map Prod.fst =
        [["index.md"]]) ∧
    (processMarkdownFile "index.md" "---\nsidebar_group: Guide\n---\nWelcome".data).group =
      some "Guide".data ∧
    (processMarkdownFile "index.md" "---\nsidebar_group: Guide\n---\nWelcome".data).destPath =
      ["guide", "index.md"] := by
  exact ⟨⟨by decide, by decide⟩, by decide, by decide⟩

/-- C1 amended: group assignment depends only on the basename.  A
markdown file whose basename is not `index.md`/`index.mdx` and whose
parsed `sidebar_group` is falsy is assigned group `Drafts`; a file whose
basename is `index.md`/`index.mdx` — at any depth — skips the `Drafts`
fallback, and with a falsy `sidebar_group` gets no group and is written
at the destination root; an index file with a truthy `sidebar_group` is
assigned that group like any other file. -/
theorem c1_amended :
    (∀ (filename : String) (content : List Char),
      isIndexName filename = false →
      jsTruthy (lookupFm (parseFrontmatter content).frontmatter sgKey) = false →
      (processMarkdownFile filename content).group = some draftsVal) ∧
    (∀ (filename : String) (content : List Char),
      isIndexName filename = true →
      jsTruthy (lookupFm (parseFrontmatter content).frontmatter sgKey) = false →
      (processMarkdownFile filename content).group = none ∧
      (processMarkdownFile filename content).destPath = [filename]) ∧
    (∀ (filename : String) (content : List Char) (g : List Char),
      lookupFm (parseFrontmatter content).frontmatter sgKey = some (.str g) →
      g.isEmpty = false →
      (processMarkdownFile filename content).group = some g) := by
  refine ⟨?_, ?_, ?_⟩
  · intro filename content hidx hsg
    have hl := lookupFm_classify_sg filename (parseFrontmatter content).frontmatter
    rw [if_pos ⟨hsg, hidx⟩] at hl
    simp [processMarkdownFile, hl, jsTruthy, valToChars, draftsVal]
  · intro filename content hidx hsg
    have hl := lookupFm_classify_sg filename (parseFrontmatter content).frontmatter
    rw [if_neg (fun h2 => by rw [hidx] at h2; exact absurd h2.2 (by simp))] at hl
    constructor
    · simp [processMarkdownFile, hl, hsg]
    · simp [processMarkdownFile, hl, hsg]
  · intro filename content g hsg hg
    have hl := lookupFm_classify_sg filename (parseFrontmatter content).frontmatter
    have htruthy : jsTruthy (lookupFm (parseFrontmatter content).frontmatter sgKey) = true := by
      rw [hsg]; simp [jsTruthy, hg]
    rw [if_neg (fun h2 => by rw [htruthy] at h2; exact absurd h2.1 (by simp))] at hl
    simp [processMarkdownFile, hl, hsg, htruthy, valToChars]
    simp [jsTruthy, hg]

/-- C1 witness: concrete instances — `notes.md` with empty frontmatter
falls back to `Drafts`; a root `index.md` with empty frontmatter gets no
group and lands at the destination root; an `index.md` with
`sidebar_group: Guide` is assigned `Guide`. -/
theorem c1_witness :
    (processMarkdownFile "notes.md" "hello".data).group = some draftsVal ∧
    ((processMarkdownFile "index.md" "hello".data).group = none ∧
      (processMarkdownFile "index.md" "hello".data).destPath = ["index.md"]) ∧
    (processMarkdownFile "index.md" "---\nsidebar_group: Guide\n---\nx".data).group =
      some "Guide".data :=
  ⟨c1_amended.1 "notes.md" "hello".data (by decide) (by decide),
   c1_amended.2.1 "index.md" "hello".data (by decide) (by decide),
   c1_amended.2.2 "index.md" "---\nsidebar_group: Guide\n---\nx".data "Guide".data
     (by decide) (by decide)⟩

/-- A successful lookup means the key is present. -/
theorem hasKey_of_lookup_some (fm : Frontmatter) (k : List Char) (v : FmValue)
    (h : lookupFm fm k = some v) : hasKey fm k = true := by
  rw [hasKey, h]
  rfl

/-- Deleting one key leaves lookups of other keys unchanged. -/
theorem lookupFm_removeKey_ne (fm : Frontmatter) (k k' : List Char)
    (h : k' ≠ k) : lookupFm (removeKey fm k) k' = lookupFm fm k' := by
  induction fm with
  | nil => rfl
  | cons p rest ih =>
    obtain ⟨a, b⟩ := p
    by_cases hak : a = k
    · subst hak
      have h1 : removeKey ((a, b) :: rest) a = removeKey rest a := by
        simp [removeKey]
      have h2 : lookupFm ((a, b) :: rest) k' = lookupFm rest k' := by
        rw [lookupFm, if_neg (fun e => h (Eq.symm e))]
      rw [h1, h2, ih]
    · have h1 : removeKey ((a, b) :: rest) k = (a, b) :: removeKey rest k := by
        simp [removeKey, hak]
      rw [h1]
      by_cases hak2 : a = k'
      · rw [lookupFm, lookupFm, if_pos hak2, if_pos hak2]
      · rw [lookupFm, lookupFm, if_neg hak2, if_neg hak2, ih]

/-- A deleted key looks up to nothing. -/
theorem lookupFm_removeKey_self (fm : Frontmatter) (k : List Char) :
    lookupFm (removeKey fm k) k = none := by
  induction fm with
  | nil => rfl
  | cons p rest ih =>
    obtain ⟨a, b⟩ := p
    by_cases hak : a = k
    · subst hak
      have h1 : removeKey ((a, b) :: rest) a = removeKey rest a := by
        simp [removeKey]
      rw [h1, ih]
    · have h1 : removeKey ((a, b) :: rest) k = (a, b) :: removeKey rest k := by
        simp [removeKey, hak]
      rw [h1, lookupFm, if_neg hak, ih]

/-- A deleted key is no longer present. -/
theorem hasKey_removeKey_self (fm : Frontmatter) (k : List Char) :
    hasKey (removeKey fm k) k = false := by
  rw [hasKey, lookupFm_removeKey_self]
  rfl

/-- Deleting one key leaves the presence of other keys unchanged. -/
theorem hasKey_removeKey_ne (fm : Frontmatter) (k k' : List Char)
    (h : k' ≠ k) : hasKey (removeKey fm k) k' = hasKey fm k' := by
  rw [hasKey, hasKey, lookupFm_removeKey_ne fm k k' h]

/-- Assigning one key leaves the presence of other keys unchanged. -/
theorem hasKey_setKey_ne (fm : Frontmatter) (k k' : List Char) (v : FmValue)
    (h : k' ≠ k) : hasKey (setKey fm k v) k' = hasKey fm k' := by
  rw [hasKey, hasKey, lookupFm_setKey_ne fm k k' v h]

/-- C2 counterexample: a present but non-numeric `sidebar_position`
(here `abc`) does not leave the order field out — the transform emits
`sidebar: { order: NaN }`, and the serialized output frontmatter
contains the line `  order: NaN`. -/
theorem c2_counterexample :
    transformFrontmatter [(spKey, .str "abc".data)] = [(sbKey, .nested none)] ∧
    serializeFrontmatter (transformFrontmatter [(spKey, .str "abc".data)]) =
      "---\nsidebar:\n  order: NaN\n---".data := by
  exact ⟨by decide, by decide⟩

/-- C2 amended: a present `sidebar_position` is always replaced by the
nested `sidebar.order` field holding `parseInt(value, 10)` — `NaN`
(serialized literally as `NaN`) when the value is non-numeric; only a
missing `sidebar_position` leaves no order field (for string-valued
input the output then consists of string values only); input
`sidebar_position: 3` yields exactly `sidebar: { order: 3 }` and no
`sidebar_position` key. -/
theorem c2_amended :
    (∀ fm : Frontmatter, hasKey fm spKey = false →
      transformFrontmatter fm = removeKey fm sgKey ∧
      ((∀ p ∈ fm, ∃ s, p.2 = FmValue.str s) →
        ∀ p ∈ transformFrontmatter fm, ∃ s, p.2 = FmValue.str s)) ∧
    (∀ (fm : Frontmatter) (v : List Char),
      lookupFm fm spKey = some (.str v) →
      lookupFm (transformFrontmatter fm) sbKey = some (.nested (jsParseInt v)) ∧
      hasKey (transformFrontmatter fm) spKey = false) ∧
    transformFrontmatter [(spKey, .str "3".data)] = [(sbKey, .nested (some 3))] := by
  refine ⟨?_, ?_, by decide⟩
  · intro fm hnone
    have htr : transformFrontmatter fm = removeKey fm sgKey := by
      unfold transformFrontmatter
      rw [if_neg (by simp [hnone])]
    refine ⟨htr, fun hstr p hp => ?_⟩
    rw [htr] at hp
    exact hstr p (List.mem_of_mem_filter hp)
  · intro fm v hlk
    have hk : hasKey fm spKey = true := hasKey_of_lookup_some fm spKey _ hlk
    have htr : transformFrontmatter fm =
        removeKey (setKey (removeKey fm spKey) sbKey (.nested (jsParseInt v))) sgKey := by
      unfold transformFrontmatter
      rw [if_pos hk, hlk]
      rfl
    constructor
    · rw [htr, lookupFm_removeKey_ne _ _ _ (by decide), lookupFm_setKey_self]
    · rw [htr, hasKey_removeKey_ne _ _ _ (by decide),
        hasKey_setKey_ne _ _ _ _ (by decide), hasKey_removeKey_self]

/-- C2 witness: the amended theorem at concrete inputs — a mapping
without `sidebar_position` only loses its `sidebar_group`, and
`sidebar_position: 7` becomes `sidebar.order = 7` with the flat key
gone. -/
theorem c2_witness :
    (transformFrontmatter [(titleKey, .str "T".data)] =
      removeKey [(titleKey, .str "T".data)] sgKey) ∧
    lookupFm (transformFrontmatter [(titleKey, .str "T".data), (spKey, .str "7".data)]) sbKey =
      some (.nested (jsParseInt "7".data)) ∧
    hasKey (transformFrontmatter [(titleKey, .str "T".data), (spKey, .str "7".data)]) spKey =
      false :=
  ⟨(c2_amended.1 [(titleKey, .str "T".data)] (by decide)).1,
   (c2_amended.2.1 [(titleKey, .str "T".data), (spKey, .str "7".data)] "7".data (by decide)).1,
   (c2_amended.2.1 [(titleKey, .str "T".data), (spKey, .str "7".data)] "7".data (by decide)).2⟩

/-- C7: when the parsed frontmatter has no `title` key, the classifier
derives the title from the filename — extension stripped, runs of
hyphens/underscores collapsed to single spaces, the first letter of
every word upper-cased (`stripMdExt`, `collapseDashes`,
`upperAtBoundaries`) — and in particular `my-awesome-page.md` yields
`My Awesome Page`. -/
theorem c7_title_from_filename :
    (∀ (filename : String) (content : List Char),
      lookupFm (parseFrontmatter content).frontmatter titleKey = none →
      lookupFm (classifyFm filename (parseFrontmatter content).frontmatter) titleKey =
        some (.str (filenameToTitle filename.data))) ∧
    filenameToTitle "my-awesome-page.md".data = "My Awesome Page".data := by
  constructor
  · intro filename content h
    unfold classifyFm classifyTitleStep
    rw [h]
    rw [if_neg (by decide)]
    unfold classifyGroupStep
    by_cases hc : ¬jsTruthy (lookupFm (setKey (parseFrontmatter content).frontmatter titleKey
        (.str (filenameToTitle filename.data))) sgKey) ∧ ¬isIndexName filename
    · rw [if_pos hc, lookupFm_setKey_ne _ _ _ _ (by decide), lookupFm_setKey_self]
    · rw [if_neg hc, lookupFm_setKey_self]
  · decide

/-- C7 witness: the title of a frontmatter-less `my-awesome-page.md` is
derived as `My Awesome Page`. -/
theorem c7_witness :
    lookupFm (classifyFm "my-awesome-page.md" (parseFrontmatter "hello".data).frontmatter)
        titleKey = some (.str "My Awesome Page".data) := by
  have h := c7_title_from_filename.1 "my-awesome-page.md" "hello".data (by decide)
  rw [h, c7_title_from_filename.2]

/-- C10: a processed markdown file's destination path is its assigned
group's slug directory (or the destination root when it has no group)
plus its basename, independent of the source subdirectory; hence two
markdown files with the same basename and the same group living in
different source subdirectories produce writes to the same destination
path, and after the sync the destination holds the content of the
later-processed one. -/
theorem c10_same_basename_collides :
    (∀ (filename : String) (content : List Char),
      (processMarkdownFile filename content).destPath =
        (match (processMarkdownFile filename content).group with
          | some g => [String.mk (slugify g)]
          | none => []) ++ [filename]) ∧
    (∀ (excludes : List String) (d1 d2 f : String) (c1 c2 : List Char),
      shouldExclude d1 excludes = false →
      shouldExclude d2 excludes = false →
      shouldExclude f excludes = false →
      isMdName f = true →
      (processMarkdownFile f c1).group = (processMarkdownFile f c2).group →
      (processMarkdownFile f c1).destPath = (processMarkdownFile f c2).destPath ∧
      (syncEntries excludes [] initState
          [FsEntry.dir d1 [FsEntry.file f c1], FsEntry.dir d2 [FsEntry.file f c2]]).writes =
        [((processMarkdownFile f c1).destPath, (processMarkdownFile f c1).content),
         ((processMarkdownFile f c2).destPath, (processMarkdownFile f c2).content)] ∧
      applyWrites (syncEntries excludes [] initState
          [FsEntry.dir d1 [FsEntry.file f c1], FsEntry.dir d2 [FsEntry.file f c2]]).writes
          emptyDest ((processMarkdownFile f c1).destPath) =
        some (processMarkdownFile f c2).content) := by
  have hpath : ∀ (filename : String) (content : List Char),
      (processMarkdownFile filename content).destPath =
        (match (processMarkdownFile filename content).group with
          | some g => [String.mk (slugify g)]
          | none => []) ++ [filename] := by
    intro filename content
    simp only [processMarkdownFile]
  refine ⟨hpath, ?_⟩
  intro excludes d1 d2 f c1 c2 hd1 hd2 hf hmd hgroup
  have hpeq : (processMarkdownFile f c1).destPath = (processMarkdownFile f c2).destPath := by
    rw [hpath f c1, hpath f c2, hgroup]
  have hwrites : (syncEntries excludes [] initState
      [FsEntry.dir d1 [FsEntry.file f c1], FsEntry.dir d2 [FsEntry.file f c2]]).writes =
      [((processMarkdownFile f c1).destPath, (processMarkdownFile f c1).content),
       ((processMarkdownFile f c2).destPath, (processMarkdownFile f c2).content)] := by
    simp [syncEntries, syncOne, entryName, hd1, hd2, hf, hmd, initState]
  refine ⟨hpeq, hwrites, ?_⟩
  rw [hwrites]
  simp [applyWrites, emptyDest, hpeq]

/-- C10 witness: `a/page.md` and `b/page.md`, both falling back to the
`Drafts` group, collide at `drafts/page.md`; the destination ends up
with the processed content of the second. -/
theorem c10_witness :
    (processMarkdownFile "page.md" "hello".data).destPath =
      (processMarkdownFile "page.md" "world".data).destPath ∧
    applyWrites (syncEntries ["_*"] [] initState
        [FsEntry.dir "a" [FsEntry.file "page.md" "hello".data],
         FsEntry.dir "b" [FsEntry.file "page.md" "world".data]]).writes
        emptyDest ((processMarkdownFile "page.md" "hello".data).destPath) =
      some (processMarkdownFile "page.md" "world".data).content :=
  ⟨(c10_same_basename_collides.2 ["_*"] "a" "b" "page.md" "hello".data "world".data
      (by decide) (by decide) (by decide) (by decide) (by decide)).1,
   (c10_same_basename_collides.2 ["_*"] "a" "b" "page.md" "hello".data "world".data
      (by decide) (by decide) (by decide) (by decide) (by decide)).2.2⟩

/-! ### Round-trip lemmas for the frontmatter codec (C4) -/

/-- Trimming ignores one leading space. -/
theorem trimChars_cons_space (v : List Char) : trimChars (' ' :: v) = trimChars v := by
  simp [trimChars, List.dropWhile_cons, isJsSpace]

/-- A list whose first and last characters are not whitespace is already
trimmed. -/
theorem trimChars_eq_self (l : List Char)
    (hh : ∀ c, l.head? = some c → isJsSpace c = false)
    (hl : ∀ c, l.getLast? = some c → isJsSpace c = false) :
    trimChars l = l := by
  have h1 : l.dropWhile isJsSpace = l := by
    cases l with
    | nil => rfl
    | cons c cs => rw [List.dropWhile_cons, if_neg (by simp [hh c rfl])]
  have h2 : l.reverse.dropWhile isJsSpace = l.reverse := by
    cases hrev : l.reverse with
    | nil => rfl
    | cons c cs =>
      have : l.getLast? = some c := by
        rw [← List.head?_reverse, hrev]
        rfl
      rw [List.dropWhile_cons, if_neg (by simp [hl c this])]
  rw [trimChars, h1, h2, List.reverse_reverse]

/-- Escaping is the identity on quote-free values. -/
theorem escapeQ_eq_self (v : List Char) (h : '"' ∉ v) : escapeQ v = v := by
  induction v with
  | nil => rfl
  | cons c cs ih =>
    have hc : c ≠ '"' := fun e => h (e ▸ List.mem_cons_self c cs)
    have hcs : '"' ∉ cs := fun m => h (List.mem_cons_of_mem c m)
    simp [escapeQ, hc] at ih ⊢
    exact ih hcs

/-- `indexOf(':')` on a colon-free key followed by a colon finds exactly
the key's length. -/
theorem colonIdx_key (k : List Char) (rest : List Char) (hk : ':' ∉ k) :
    colonIdx (k ++ ':' :: rest) = some k.length := by
  induction k with
  | nil => simp [colonIdx]
  | cons c cs ih =>
    have hc : c ≠ ':' := fun e => hk (e ▸ List.mem_cons_self c cs)
    have hcs : ':' ∉ cs := fun m => hk (List.mem_cons_of_mem c m)
    simp [colonIdx, hc, ih hcs]

/-- A good value passes through quote stripping unchanged when emitted
bare. -/
theorem stripQuotes_eq_self (v : List Char) (hs : hasSpecial v = false)
    (hq : ¬(v.head? = some '"' ∧ v.getLast? = some '"')) :
    stripQuotes v = v := by
  have hsq : squote ∉ v := by
    intro m
    have htrue : v.any (fun c => c = ':' || c = '#' || c = squote) = true :=
      List.any_eq_true.mpr ⟨squote, m, by simp⟩
    rw [hasSpecial] at hs
    rw [hs] at htrue
    exact Bool.noConfusion htrue
  unfold stripQuotes
  rw [if_neg hq, if_neg (fun h => hsq (List.mem_of_mem_head? (by rw [h.1]; rfl)))]

/-- Parsing a serialized `key: value` line recovers the key and the
value, for good keys and values. -/
theorem parseLine_render (k v : List Char) (hk : goodKey k) (hv : goodVal v) :
    parseLine (renderStrLine k v) = some (k, v) := by
  obtain ⟨hk0, hkc, _, _, hkt, _⟩ := hk
  obtain ⟨_, _, hvt, hvq, hvb⟩ := hv
  have hpos : 0 < k.length := List.length_pos.mpr hk0
  cases hsp : hasSpecial v with
  | false =>
    have hline : renderStrLine k v = k ++ ':' :: (' ' :: v) := by
      rw [renderStrLine, if_neg (by simp [hsp])]
      simp
    rw [hline, parseLine, colonIdx_key k _ hkc]
    simp only [Option.some.injEq]
    rw [if_pos hpos]
    have htake : (k ++ ':' :: (' ' :: v)).take k.length = k := List.take_left k _
    have hdrop : (k ++ ':' :: (' ' :: v)).drop (k.length + 1) = ' ' :: v := by
      have h := @List.drop_append Char k (':' :: (' ' :: v)) 1
      simp only [List.drop_succ_cons, List.drop_zero] at h
      exact h
    rw [htake, hdrop, hkt, trimChars_cons_space, hvt,
      stripQuotes_eq_self v hsp (hvb hsp)]
  | true =>
    have hesc : escapeQ v = v := escapeQ_eq_self v (hvq hsp)
    have hline : renderStrLine k v = k ++ ':' :: (' ' :: ('"' :: (v ++ ['"']))) := by
      rw [renderStrLine, if_pos hsp, hesc]
      simp
    rw [hline, parseLine, colonIdx_key k _ hkc]
    simp only [Option.some.injEq]
    rw [if_pos hpos]
    have htake : (k ++ ':' :: (' ' :: ('"' :: (v ++ ['"'])))).take k.length = k :=
      List.take_left k _
    have hdrop : (k ++ ':' :: (' ' :: ('"' :: (v ++ ['"'])))).drop (k.length + 1) =
        ' ' :: ('"' :: (v ++ ['"'])) := by
      have h := @List.drop_append Char k (':' :: (' ' :: ('"' :: (v ++ ['"'])))) 1
      simp only [List.drop_succ_cons, List.drop_zero] at h
      exact h
    have hlast : ('"' :: (v ++ ['"'])).getLast? = some '"' := by
      have : ('"' :: v) ++ ['"'] = '"' :: (v ++ ['"']) := by simp
      rw [← this, List.getLast?_concat]
    have htrim : trimChars ('"' :: (v ++ ['"'])) = '"' :: (v ++ ['"']) := by
      refine trimChars_eq_self _ (fun c hc => ?_) (fun c hc => ?_)
      · rw [List.head?_cons, Option.some.injEq] at hc
        rw [← hc]
        rfl
      · rw [hlast, Option.some.injEq] at hc
        rw [← hc]
        rfl
    have hstrip : stripQuotes ('"' :: (v ++ ['"'])) = v := by
      rw [stripQuotes, if_pos ⟨rfl, hlast⟩]
      simp
    rw [htake, hdrop, hkt, trimChars_cons_space, htrim, hstrip]

/-- The delimiter scan passes over newline-free, return-free text. -/
theorem scanClose_append (l r : List Char) :
    '\n' ∉ l → '\r' ∉ l →
    scanClose (l ++ r) = (scanClose r).map (fun p => (l ++ p.1, p.2)) := by
  induction l with
  | nil =>
    intro _ _
    cases h : scanClose r <;> simp [h]
  | cons c cs ih =>
    intro h1 h2
    have hcn : c ≠ '\n' := fun e => h1 (e ▸ List.mem_cons_self c cs)
    have hcr : c ≠ '\r' := fun e => h2 (e ▸ List.mem_cons_self c cs)
    have h1' : '\n' ∉ cs := fun m => h1 (List.mem_cons_of_mem c m)
    have h2' : '\r' ∉ cs := fun m => h2 (List.mem_cons_of_mem c m)
    have hc5 : startsClose5 (c :: (cs ++ r)) = false := by
      simp [startsClose5, List.take_succ_cons, hcr]
    have hc4 : startsClose4 (c :: (cs ++ r)) = false := by
      simp [startsClose4, List.take_succ_cons, hcn]
    simp only [List.cons_append, List.append_eq, scanClose, hc5, hc4,
      Bool.false_eq_true, if_false]
    rw [ih h1' h2']
    cases h : scanClose r with
    | none => simp
    | some p => simp

/-- At a line separator the delimiter scan moves on when the following
text does not begin with `---`. -/
theorem scanClose_cons_nl (u : List Char) (h : ¬(['-', '-', '-'] <+: u)) :
    scanClose ('\n' :: u) = (scanClose u).map (fun p => ('\n' :: p.1, p.2)) := by
  have hc5 : startsClose5 ('\n' :: u) = false := by
    simp [startsClose5, List.take_succ_cons]
  have hc4 : startsClose4 ('\n' :: u) = false := by
    have hne : u.take 3 ≠ ['-', '-', '-'] := fun e => h (List.prefix_iff_eq_take.mpr e.symm)
    simp [startsClose4, List.take_succ_cons, hne]
  simp only [scanClose, hc5, hc4, Bool.false_eq_true, if_false]
  cases h' : scanClose u with
  | none => simp
  | some p => simp

/-- On a joined block of safe lines followed by the closing delimiter,
the scan finds exactly the joined block. -/
theorem scanClose_block (lines : List (List Char)) (h : ∀ l ∈ lines, lineSafe l) :
    scanClose (joinNl lines ++ '\n' :: ['-', '-', '-']) = some (joinNl lines, []) := by
  induction lines with
  | nil => decide
  | cons l ls ih =>
    obtain ⟨hn, hr, _⟩ := h l (List.mem_cons_self l ls)
    cases ls with
    | nil =>
      rw [show joinNl [l] = l from rfl, scanClose_append l _ hn hr,
        show scanClose ('\n' :: ['-', '-', '-']) = some ([], []) from by decide]
      simp
    | cons l2 ls2 =>
      rw [show joinNl (l :: l2 :: ls2) = l ++ '\n' :: joinNl (l2 :: ls2) from rfl]
      have hassoc : (l ++ '\n' :: joinNl (l2 :: ls2)) ++ '\n' :: ['-', '-', '-'] =
          l ++ ('\n' :: (joinNl (l2 :: ls2) ++ '\n' :: ['-', '-', '-'])) := by
        simp
      rw [hassoc, scanClose_append l _ hn hr]
      have hpre : ¬(['-', '-', '-'] <+: (joinNl (l2 :: ls2) ++ '\n' :: ['-', '-', '-'])) := by
        obtain ⟨_, _, hd2⟩ := h l2 (by simp)
        cases ls2 with
        | nil => simpa using hd2 ('\n' :: ['-', '-', '-'])
        | cons l3 ls3 =>
          have heq : joinNl (l2 :: l3 :: ls3) ++ '\n' :: ['-', '-', '-'] =
              l2 ++ ('\n' :: joinNl (l3 :: ls3) ++ '\n' :: ['-', '-', '-']) := by
            rw [show joinNl (l2 :: l3 :: ls3) = l2 ++ '\n' :: joinNl (l3 :: ls3) from rfl]
            simp
          rw [heq]
          exact hd2 _
      rw [scanClose_cons_nl _ hpre, ih (fun x hx => h x (List.mem_cons_of_mem l hx))]
      simp

/-- Splitting newline-free text on newlines is trivial. -/
theorem splitNl_no_nl (l : List Char) (h : '\n' ∉ l) : splitNl l = [l] := by
  induction l with
  | nil => rfl
  | cons c cs ih =>
    have hc : ¬(c = '\n') := fun e => h (e ▸ List.mem_cons_self c cs)
    have hcs : '\n' ∉ cs := fun m => h (List.mem_cons_of_mem c m)
    simp [splitNl, hc, ih hcs]

/-- Splitting at the first newline peels off the first line. -/
theorem splitNl_append (l r : List Char) (h : '\n' ∉ l) :
    splitNl (l ++ '\n' :: r) = l :: splitNl r := by
  induction l with
  | nil => simp [splitNl]
  | cons c cs ih =>
    have hc : ¬(c = '\n') := fun e => h (e ▸ List.mem_cons_self c cs)
    have hcs : '\n' ∉ cs := fun m => h (List.mem_cons_of_mem c m)
    simp [splitNl, hc, ih hcs]

/-- Splitting undoes joining for a nonempty list of newline-free
lines. -/
theorem splitNl_joinNl (lines : List (List Char)) (hne : lines ≠ [])
    (h : ∀ l ∈ lines, '\n' ∉ l) : splitNl (joinNl lines) = lines := by
  induction lines with
  | nil => exact absurd rfl hne
  | cons l ls ih =>
    cases ls with
    | nil => exact splitNl_no_nl l (h l (by simp))
    | cons l2 ls2 =>
      rw [show joinNl (l :: l2 :: ls2) = l ++ '\n' :: joinNl (l2 :: ls2) from rfl,
        splitNl_append l _ (h l (by simp)),
        ih (by simp) (fun x hx => h x (List.mem_cons_of_mem l hx))]

/-- Joining with a final extra line appends it after a newline. -/
theorem joinNl_concat (lines : List (List Char)) (x : List Char) (h : lines ≠ []) :
    joinNl (lines ++ [x]) = joinNl lines ++ '\n' :: x := by
  induction lines with
  | nil => exact absurd rfl h
  | cons l ls ih =>
    cases ls with
    | nil => rfl
    | cons l2 ls2 =>
      have h1 : (l :: l2 :: ls2) ++ [x] = l :: l2 :: (ls2 ++ [x]) := by simp
      rw [h1]
      have ihx := ih (by simp)
      have h2 : (l2 :: ls2) ++ [x] = l2 :: (ls2 ++ [x]) := by simp
      rw [h2] at ihx
      rw [show joinNl (l :: l2 :: (ls2 ++ [x])) = l ++ '\n' :: joinNl (l2 :: (ls2 ++ [x])) from rfl,
        ihx,
        show joinNl (l :: l2 :: ls2) = l ++ '\n' :: joinNl (l2 :: ls2) from rfl]
      simp

/-- Assigning a fresh key appends the binding at the end. -/
theorem setKey_fresh (fm : Frontmatter) (k : List Char) (v : FmValue)
    (h : ∀ p ∈ fm, p.1 ≠ k) : setKey fm k v = fm ++ [(k, v)] := by
  induction fm with
  | nil => rfl
  | cons p rest ih =>
    obtain ⟨a, b⟩ := p
    have ha : a ≠ k := h (a, b) (List.mem_cons_self _ _)
    rw [setKey, if_neg ha, ih (fun q hq => h q (List.mem_cons_of_mem _ hq))]
    simp

/-- A good key followed by a colon can never produce the `---` delimiter
prefix, however the line continues. -/
theorem key_colon_never_dashes (k : List Char) (hk0 : k ≠ [])
    (hkd : ¬(['-', '-', '-'] <+: k)) :
    ∀ X : List Char, ¬(['-', '-', '-'] <+: (k ++ ':' :: X)) := by
  intro X hpre
  match k, hk0 with
  | [a], _ =>
    rw [List.singleton_append, List.cons_prefix_cons] at hpre
    rw [List.cons_prefix_cons] at hpre
    exact absurd hpre.2.1.symm (by decide)
  | [a, b], _ =>
    simp only [List.cons_append, List.nil_append, List.cons_prefix_cons] at hpre
    exact absurd hpre.2.2.1.symm (by decide)
  | a :: b :: c :: t, _ =>
    simp only [List.cons_append, List.cons_prefix_cons] at hpre
    refine hkd ?_
    rw [show a = '-' from hpre.1.symm, show b = '-' from hpre.2.1.symm,
      show c = '-' from hpre.2.2.1.symm]
    exact ⟨t, rfl⟩

/-- Every character of an escaped value is a value character, a
backslash, or a double quote. -/
theorem mem_escapeQ (v : List Char) (c : Char) (h : c ∈ escapeQ v) :
    c ∈ v ∨ c = '\\' ∨ c = '"' := by
  rw [escapeQ] at h
  rcases List.mem_flatMap.mp h with ⟨d, hd, hcd⟩
  by_cases hdq : d = '"'
  · rw [if_pos hdq] at hcd
    simp at hcd
    rcases hcd with h' | h'
    · exact Or.inr (Or.inl h')
    · exact Or.inr (Or.inr h')
  · rw [if_neg hdq] at hcd
    simp at hcd
    exact Or.inl (hcd ▸ hd)

/-- Every character of a serialized line comes from the key, the value,
or the fixed punctuation. -/
theorem mem_renderStrLine (c : Char) (k v : List Char) (h : c ∈ renderStrLine k v) :
    c ∈ k ∨ c ∈ v ∨ c = ':' ∨ c = ' ' ∨ c = '"' ∨ c = '\\' := by
  rw [renderStrLine] at h
  by_cases hsp : hasSpecial v
  · rw [if_pos hsp] at h
    simp only [List.append_assoc, List.mem_append, List.mem_cons, List.not_mem_nil,
      or_false] at h
    rcases h with h | (h | h | h) | (h | h)
    · exact Or.inl h
    · exact Or.inr (Or.inr (Or.inl h))
    · exact Or.inr (Or.inr (Or.inr (Or.inl h)))
    · exact Or.inr (Or.inr (Or.inr (Or.inr (Or.inl h))))
    · rcases mem_escapeQ v c h with h' | h' | h'
      · exact Or.inr (Or.inl h')
      · exact Or.inr (Or.inr (Or.inr (Or.inr (Or.inr h'))))
      · exact Or.inr (Or.inr (Or.inr (Or.inr (Or.inl h'))))
    · exact Or.inr (Or.inr (Or.inr (Or.inr (Or.inl h))))
  · rw [if_neg hsp] at h
    simp only [List.append_assoc, List.mem_append, List.mem_cons, List.not_mem_nil,
      or_false] at h
    rcases h with h | (h | h) | h
    · exact Or.inl h
    · exact Or.inr (Or.inr (Or.inl h))
    · exact Or.inr (Or.inr (Or.inr (Or.inl h)))
    · exact Or.inr (Or.inl h)

/-- The serialized line of a good entry is safe for the delimiter
scan. -/
theorem renderStrLine_safe (k v : List Char) (hk : goodKey k) (hv : goodVal v) :
    lineSafe (renderStrLine k v) := by
  obtain ⟨hk0, _, hkn, hkr, _, hkd⟩ := hk
  obtain ⟨hvn, hvr, _, _, _⟩ := hv
  have hmem : ∀ c : Char, c ∈ renderStrLine k v →
      c ∈ k ∨ c ∈ v ∨ c = ':' ∨ c = ' ' ∨ c = '"' ∨ c = '\\' :=
    fun c hc => mem_renderStrLine c k v hc
  refine ⟨?_, ?_, ?_⟩
  · intro hmem'
    rcases hmem '\n' hmem' with h | h | h | h | h | h
    · exact hkn h
    · exact hvn h
    all_goals exact absurd h (by decide)
  · intro hmem'
    rcases hmem '\r' hmem' with h | h | h | h | h | h
    · exact hkr h
    · exact hvr h
    all_goals exact absurd h (by decide)
  · intro rest
    have hshape : ∃ Y, renderStrLine k v ++ rest = k ++ ':' :: Y := by
      rw [renderStrLine]
      by_cases hsp : hasSpecial v
      · rw [if_pos hsp]
        exact ⟨(' ' :: '"' :: escapeQ v ++ ['"']) ++ rest, by simp⟩
      · rw [if_neg hsp]
        exact ⟨(' ' :: v) ++ rest, by simp⟩
    obtain ⟨Y, hY⟩ := hshape
    rw [hY]
    exact key_colon_never_dashes k hk0 hkd Y

/-- Folding the parsed lines of good, key-distinct entries into an
object reproduces the entries after any disjoint prefix. -/
theorem buildFM_fold (entries : List (List Char × List Char)) :
    ∀ acc : Frontmatter,
      (∀ p ∈ entries, goodKey p.1 ∧ goodVal p.2) →
      (∀ p ∈ entries, ∀ q ∈ acc, q.1 ≠ p.1) →
      (entries.map Prod.fst).Nodup →
      List.foldl
        (fun fm line =>
          match parseLine line with
          | some (k, v) => setKey fm k (.str v)
          | none => fm)
        acc (entries.map (fun p => renderStrLine p.1 p.2)) =
        acc ++ entries.map (fun p => (p.1, FmValue.str p.2)) := by
  induction entries with
  | nil =>
    intro acc _ _ _
    simp
  | cons p rest ih =>
    intro acc hgood hdisj hnodup
    obtain ⟨k, v⟩ := p
    obtain ⟨hgk, hgv⟩ := hgood (k, v) (List.mem_cons_self _ _)
    simp only [List.map_cons, List.foldl_cons]
    rw [parseLine_render k v hgk hgv]
    rw [List.map_cons, List.nodup_cons] at hnodup
    have hfresh : ∀ q ∈ acc, q.1 ≠ k :=
      fun q hq => hdisj (k, v) (List.mem_cons_self _ _) q hq
    have hstep : (match some (k, v) with
        | some (k, v) => setKey acc k (FmValue.str v)
        | none => acc) = acc ++ [(k, FmValue.str v)] := by
      exact setKey_fresh acc k _ hfresh
    rw [hstep]
    have hdisj' : ∀ p ∈ rest, ∀ q ∈ acc ++ [(k, FmValue.str v)], q.1 ≠ p.1 := by
      intro p hp q hq
      rcases List.mem_append.mp hq with h | h
      · exact hdisj p (List.mem_cons_of_mem _ hp) q h
      · rw [List.mem_singleton] at h
        subst h
        intro e
        exact hnodup.1 (e ▸ List.mem_map_of_mem Prod.fst hp)
    rw [ih (acc ++ [(k, FmValue.str v)])
      (fun q hq => hgood q (List.mem_cons_of_mem _ hq)) hdisj' hnodup.2]
    simp

/-- For a mapping of string values, serialization emits exactly one line
per entry. -/
theorem flatMap_entryLines (entries : List (List Char × List Char)) :
    (entries.map (fun p => (p.1, FmValue.str p.2))).flatMap entryLines =
      entries.map (fun p => renderStrLine p.1 p.2) := by
  induction entries with
  | nil => rfl
  | cons p rest ih =>
    simp only [List.map_cons, List.flatMap_cons, entryLines, ih]
    rfl

/-- The serialized form of a nonempty string-valued mapping: opener,
joined entry lines, closer. -/
theorem serialize_shape (entries : List (List Char × List Char)) (hne : entries ≠ []) :
    serializeFrontmatter (entries.map (fun p => (p.1, FmValue.str p.2))) =
      '-' :: '-' :: '-' :: '\n' ::
        (joinNl (entries.map (fun p => renderStrLine p.1 p.2)) ++ '\n' :: ['-', '-', '-']) := by
  rw [serializeFrontmatter, flatMap_entryLines]
  have hlines : entries.map (fun p => renderStrLine p.1 p.2) ≠ [] := by
    intro h
    exact hne (List.map_eq_nil_iff.mp h)
  have h1 : [['-', '-', '-']] ++ entries.map (fun p => renderStrLine p.1 p.2) ++
      [['-', '-', '-']] =
      ['-', '-', '-'] :: (entries.map (fun p => renderStrLine p.1 p.2) ++ [['-', '-', '-']]) := by
    simp
  rw [h1]
  have h2 : entries.map (fun p => renderStrLine p.1 p.2) ++ [['-', '-', '-']] ≠ [] := by
    simp
  have h3 : joinNl (['-', '-', '-'] ::
      (entries.map (fun p => renderStrLine p.1 p.2) ++ [['-', '-', '-']])) =
      ['-', '-', '-'] ++ '\n' :: joinNl
        (entries.map (fun p => renderStrLine p.1 p.2) ++ [['-', '-', '-']]) := by
    cases h : entries.map (fun p => renderStrLine p.1 p.2) ++ [['-', '-', '-']] with
    | nil => exact absurd h h2
    | cons a t => rfl
  rw [h3, joinNl_concat _ _ hlines]
  rfl

/-- C4 counterexample, four conjuncts.  (1) The transform's nested
`sidebar: { order: 3 }` does not round-trip: re-parsing flattens it into
a `sidebar` key with empty string value plus a flat string `order` key.
(2) A bare value that is itself wrapped in double quotes loses them.
(3) A quoted value containing a double quote keeps the inserted
backslash escape.  (4) A key beginning with `---` on a non-initial line
truncates the re-parsed block. -/
theorem c4_counterexample :
    (parseFrontmatter (serializeFrontmatter
        [(titleKey, .str "X".data), (sbKey, .nested (some 3))])).frontmatter =
      [(titleKey, .str "X".data), (sbKey, .str []), ("order".data, .str "3".data)] ∧
    (parseFrontmatter (serializeFrontmatter
        [("k".data, .str "\"v\"".data)])).frontmatter =
      [("k".data, .str "v".data)] ∧
    (parseFrontmatter (serializeFrontmatter
        [("k".data, .str "a:\"b".data)])).frontmatter =
      [("k".data, .str "a:\\\"b".data)] ∧
    (parseFrontmatter (serializeFrontmatter
        [("a".data, .str "b".data), ("---x".data, .str "v".data)])).frontmatter =
      [("a".data, .str "b".data)] := by
  exact ⟨by decide, by decide, by decide, by decide⟩

/-- C4 amended: `parse(serialize(x)) == x` holds for flat string-valued
mappings with distinct good keys (nonempty, colon-, newline- and
return-free, trimmed, not starting with `---`) and good values
(newline- and return-free, trimmed, with no double quote inside values
the serializer quotes, and not themselves wrapped in double quotes
otherwise); mappings holding the transform's nested `sidebar.order`
object are instead flattened on re-parse, as the counterexample
shows. -/
theorem c4_amended (entries : List (List Char × List Char))
    (hgood : ∀ p ∈ entries, goodKey p.1 ∧ goodVal p.2)
    (hnodup : (entries.map Prod.fst).Nodup) :
    (parseFrontmatter (serializeFrontmatter
        (entries.map (fun p => (p.1, FmValue.str p.2))))).frontmatter =
      entries.map (fun p => (p.1, FmValue.str p.2)) := by
  cases entries with
  | nil => decide
  | cons e rest =>
    rw [serialize_shape (e :: rest) (by simp)]
    have hsafe : ∀ l ∈ (e :: rest).map (fun p => renderStrLine p.1 p.2), lineSafe l := by
      intro l hl
      rcases List.mem_map.mp hl with ⟨p, hp, hpl⟩
      obtain ⟨hk, hv⟩ := hgood p hp
      exact hpl ▸ renderStrLine_safe p.1 p.2 hk hv
    have hnl : ∀ l ∈ (e :: rest).map (fun p => renderStrLine p.1 p.2), '\n' ∉ l :=
      fun l hl => (hsafe l hl).1
    rw [parseFrontmatter]
    rw [if_neg (by simp [List.take_succ_cons])]
    rw [if_pos (by simp [List.take_succ_cons])]
    have hdrop : ('-' :: '-' :: '-' :: '\n' ::
        (joinNl ((e :: rest).map (fun p => renderStrLine p.1 p.2)) ++
          '\n' :: ['-', '-', '-'])).drop 4 =
        joinNl ((e :: rest).map (fun p => renderStrLine p.1 p.2)) ++
          '\n' :: ['-', '-', '-'] := rfl
    rw [hdrop, scanClose_block _ hsafe]
    simp only
    rw [splitNl_joinNl _ (by simp) hnl, buildFM]
    rw [buildFM_fold (e :: rest) [] hgood (by simp) hnodup]
    rfl

/-- C4 witness: a concrete good flat mapping round-trips. -/
theorem c4_witness :
    (parseFrontmatter (serializeFrontmatter
        [(titleKey, FmValue.str "Hello World".data),
         ("description".data, FmValue.str "a: b".data)])).frontmatter =
      [(titleKey, FmValue.str "Hello World".data),
       ("description".data, FmValue.str "a: b".data)] := by
  have h := c4_amended
    [(titleKey, "Hello World".data), ("description".data, "a: b".data)]
    (by decide) (by decide)
  simpa using h

end SyncDocs
